import Mathlib

/-!
Verification of the text-layout engine of the split-flap YouTube statistics
program (`src/splitflap_youtube_stats.py`).

Strings are modelled as `List Char`.  Functions that can raise a Python
exception (`AssertionError`, `IndexError`, `TypeError`) return an `Option`,
with `none` modelling the raised exception.
-/

namespace Splitflap

/-- Python slice `l[0:k]` where `k` may be negative (an index from the end). -/
def pyTake (l : List Char) (k : Int) : List Char :=
  if 0 ≤ k then l.take k.toNat else l.take (l.length - (-k).toNat)

/-- Python `str(num)` for an integer `num`. -/
def pyStrInt (num : Int) : List Char :=
  if num < 0 then '-' :: (Nat.repr num.natAbs).toList else (Nat.repr num.toNat).toList

/-- Python `str.ljust`: pad on the right with spaces up to width `n`. -/
def pyLJust (l : List Char) (n : Nat) : List Char :=
  l ++ List.replicate (n - l.length) ' '

/-- Python `str.rjust`: pad on the left with spaces up to width `n`. -/
def pyRJust (l : List Char) (n : Nat) : List Char :=
  List.replicate (n - l.length) ' ' ++ l

/-- The exponent count used by `SplitflapPrinter.filter_number`
(source lines 209--211): `overage = places - num_modules + len("E+") + 1`,
then `overage = overage + len(str(overage)) - 1` when the exponent has
several digits. -/
def adjOverage (places w : Nat) : Nat :=
  let overage := places - w + 3
  if 1 < (Nat.repr overage).length then overage + (Nat.repr overage).length - 1 else overage

/-- The scientific-notation tail `"E+" + str(overage)` built by
`SplitflapPrinter.filter_number` (source line 212). -/
def sciSuffix (num : Int) (w : Nat) : List Char :=
  'E' :: '+' :: (Nat.repr (adjOverage (pyStrInt num).length w)).toList

/-- `SplitflapPrinter.filter_number` (source lines 184--216) on an integer
input, with `w` the number of display modules.  The final `assert
len(out) <= num_modules` is modelled by returning `none` (an
`AssertionError`) when the built string is too long. -/
def filter_number (num : Int) (w : Nat) : Option (List Char) :=
  let s := pyStrInt num
  let places := s.length
  if w < places ∧ 0 < w - 3 then
    let exp_str := sciSuffix num w
    let out := pyTake s ((w : Int) - exp_str.length) ++ exp_str
    if out.length ≤ w then some out else none
  else
    some s

/-- The default delimiter string `' ,.-_'` of `parse_message_chunks`. -/
def pyDelim : List Char := [' ', ',', '.', '-', '_']

/-- `re.split('[{delim}]+', text)`: split `text` at each maximal nonempty run
of delimiter characters (process 1 of `parse_message_chunks`, source
line 239).  A leading or trailing delimiter run produces an empty token. -/
def splitWords (delim : List Char) : List Char → List (List Char)
  | [] => [[]]
  | c :: rest =>
    if c ∈ delim then
      match rest with
      | d :: rest' =>
        if d ∈ delim then splitWords delim (d :: rest')
        else [] :: splitWords delim (d :: rest')
      | [] => [[], []]
    else
      (splitWords delim rest).modifyHead (c :: ·)

/-- `[word[i:i+n] for i in range(0, len(word), n)]`: cut a word into
consecutive pieces of length `n` (the last one possibly shorter). -/
def chunksOf (n : Nat) (l : List Char) : List (List Char) :=
  if h : l = [] then []
  else if hn : n = 0 then [l]
  else l.take n :: chunksOf n (l.drop n)
termination_by l.length
decreasing_by
  have : l.length ≠ 0 := fun h0 => h (List.length_eq_zero.mp h0)
  simp only [List.length_drop]
  omega

/-- Process 2 of `parse_message_chunks` (source lines 242--250): replace
every word longer than `size` by its `size`-sized pieces, in order.  The
Python loop deletes the long word and re-inserts the pieces; since every
piece is at most `size` long the re-scan never splits a piece again, so the
loop amounts to this `flatMap`. -/
def hardSplit (size : Nat) (words : List (List Char)) : List (List Char) :=
  words.flatMap (fun w => if size < w.length then chunksOf size w else [w])

/-- Process 3 of `parse_message_chunks` (source lines 252--274), the
re-merge loop, translated statement by statement.  State: the current word
list, the iterator `index` and the `finished` flag.  One recursive call is
one iteration of the Python `while True` loop:
* when `index >= len(words) - 1` and `finished`, break and return the list;
* when `index >= len(words) - 1` and not `finished`, reset `index = 0`,
  `finished = True` and fall through to the loop body (the Python code has
  no `continue`, so the body runs in the same iteration);
* the body reads `words[index]` and `words[index + 1]` — `none` models the
  `IndexError` raised when the reset happens with fewer than two words —
  and merges them (with the whole delimiter string in between, as in
  `words[index] + delimeter + words[index + 1]`) when the result fits. -/
def mergeLoop (size : Nat) (delim : List Char) (words : List (List Char))
    (index : Nat) (finished : Bool) : Option (List (List Char)) :=
  if hstop : words.length ≤ index + 1 ∧ finished = true then
    some words
  else if hr : words.length ≤ index + 1 then
    -- `index = 0`, `finished = True` after the reset; the body runs in the
    -- same iteration since the Python loop has no `continue`
    if h : 1 < words.length then
      if (words[0] ++ delim ++ words[1]).length ≤ size then
        mergeLoop size delim
          (words.take 0 ++ (words[0] ++ delim ++ words[1]) :: words.drop 2) 1 false
      else
        mergeLoop size delim words 1 true
    else none
  else
    if h : index + 1 < words.length then
      if (words[index] ++ delim ++ words[index + 1]).length ≤ size then
        mergeLoop size delim
          (words.take index ++
            (words[index] ++ delim ++ words[index + 1]) :: words.drop (index + 2))
          (index + 1) false
      else
        mergeLoop size delim words (index + 1) finished
    else none
termination_by
  (words.length, (if finished then 0 else words.length + 1) + (words.length - index))
decreasing_by
  · simp only [Prod.lex_def]
    simp only [List.length_append, List.length_take, List.length_cons, List.length_drop]
    left
    omega
  · have hf : finished = false := by
      rcases finished with _ | _
      · rfl
      · exact absurd ⟨hr, rfl⟩ hstop
    subst hf
    simp only [Prod.lex_def]
    right
    simp only [if_true, if_false, Bool.false_eq_true, ite_true, ite_false, true_and,
      reduceIte]
    omega
  · simp only [Prod.lex_def]
    simp only [List.length_append, List.length_take, List.length_cons, List.length_drop]
    left
    omega
  · simp only [Prod.lex_def]
    right
    constructor
    · trivial
    · rcases finished with _ | _ <;> simp <;> omega

/-- `SplitflapPrinter.parse_message_chunks` (source lines 218--276).
Returns `none` when the Python code would raise an `IndexError` in the
re-merge loop. -/
def parse_message_chunks (text : List Char) (chunk_size : Nat) (delim : List Char) :
    Option (List (List Char)) :=
  if chunk_size = 0 ∨ text.length ≤ chunk_size then
    some [text]
  else
    mergeLoop chunk_size delim (hardSplit chunk_size (splitWords delim text)) 0 true

/-- Join a block of words with the delimiter string between consecutive
words: what repeated `words[index] + delimeter + words[index + 1]` merges in
the re-merge loop produce. -/
def joinD (delim : List Char) : List (List Char) → List Char
  | [] => []
  | [w] => w
  | w :: ws => w ++ delim ++ joinD delim ws

/-- The character-classification primitives used by
`SplitflapPrinter.filter_string`: Python's `str.isalpha`, `str.isupper`,
`str.lower` and `str.upper` on single characters. -/
structure CharFns where
  isAlpha : Char → Bool
  isUpper : Char → Bool
  toLower : Char → Char
  toUpper : Char → Char

/-- Lean's ASCII character primitives, which agree with Python's on ASCII. -/
def asciiFns : CharFns :=
  { isAlpha := Char.isAlpha
    isUpper := fun c => c.isUpper
    toLower := Char.toLower
    toUpper := Char.toUpper }

/-- The per-character body of `SplitflapPrinter.filter_string`
(source lines 293--302): keep a supported character, otherwise try the
opposite case, otherwise substitute the replacement. -/
def filter_char (fns : CharFns) (supported : List Char) (replacement : Char) (c : Char) :
    Char :=
  if c ∈ supported then c
  else if fns.isAlpha c then
    let alt_char := if fns.isUpper c then fns.toLower c else fns.toUpper c
    if alt_char ∈ supported then alt_char else replacement
  else replacement

/-- `SplitflapPrinter.filter_string` (source lines 278--304): the loop
mutates each position of the character list exactly once, i.e. it is a map
of `filter_char` over the string.  `supported` models the display's
`in_character_list` membership test. -/
def filter_string (fns : CharFns) (supported : List Char) (replacement : Char)
    (s : List Char) : List Char :=
  s.map (filter_char fns supported replacement)

/-- Sort order used by `prefixes.sort(reverse=True, key=len)` in
`get_stat_prefix` (source line 406): longer strings first. -/
def lenDescRel (a b : List Char) : Prop := b.length ≤ a.length

instance : DecidableRel lenDescRel := fun a b => Nat.decLe b.length a.length

instance : IsTotal (List Char) lenDescRel := ⟨fun a b => Nat.le_total b.length a.length⟩

instance : IsTrans (List Char) lenDescRel := ⟨fun _ _ _ h1 h2 => Nat.le_trans h2 h1⟩

/-- The scan of `get_stat_prefix` (source lines 412--420) over the sorted
label list, keeping the first label that fits the display alone
(`longest_single`) and the first whose `label + ' ' + value` fits
(`longest_combined`). -/
def selectLoop (w : Nat) (value : List Char) :
    List (List Char) → Option (List Char) → Option (List Char) →
      Option (List Char) × Option (List Char)
  | [], longest_single, longest_combined => (longest_single, longest_combined)
  | p :: rest, longest_single, longest_combined =>
    let ls := if longest_single = none ∧ p.length ≤ w then some p else longest_single
    let lc :=
      if longest_combined = none ∧ (p ++ ' ' :: value).length ≤ w then some p
      else longest_combined
    selectLoop w value rest ls lc

/-- `SplitflapPrinter.get_stat_prefix` (source lines 388--426) on a list of
candidate labels: sort the labels longest-first (Python's stable sort),
scan them, and return the longest that fits with the value, else the
longest that fits alone, else `prefixes[-1]` (the last, shortest label).
`none` models the `IndexError` that `prefixes[-1]` raises on an empty
list.  (The Python `None` returned for a `None`/`""` argument is modelled
at the caller, `print_stat_pages`.) -/
def get_stat_label (labels : List (List Char)) (value : List Char) (w : Nat) :
    Option (List Char) :=
  let sorted := List.insertionSort lenDescRel labels
  match selectLoop w value sorted none none with
  | (_, some lc) => some lc
  | (some ls, none) => some ls
  | (none, none) => sorted.getLast?

/-- `SplitflapPrinter.already_displaying_prefix` (source lines 428--449):
whether any of the labels, filtered to displayable characters, occurs as a
substring (`str.count > 0`) of the text currently on the display. -/
def already_displaying_label (fns : CharFns) (supported : List Char)
    (labels : Option (List (List Char))) (current : List Char) : Bool :=
  match labels with
  | none => false
  | some pl => pl.any (fun p => decide (filter_string fns supported '?' p <:+: current))

/-- Alignment argument of `print` / `print_stat`. -/
inductive Align where
  | left
  | right
  | center

/-- The combined label-and-value string built by `print_stat` when both fit
(source lines 485--490). -/
def combined_str (align : Align) (p v : List Char) (w : Nat) : List Char :=
  match align with
  | .left => v ++ pyRJust p (w - v.length)
  | .right => pyLJust p (w - v.length) ++ v
  | .center => v ++ ' ' :: p

/-- The sequence of pages `SplitflapPrinter.print` (source lines 357--377)
sends to the display for a string input: the chunks of the text at the
display width, each passed to `set_text` in turn.  (The numeric branch of
`print` compares `type(text)` with `type(int)`, which is never equal for a
value, so every input is chunked as text.) -/
def print_pages (text : List Char) (w : Nat) : Option (List (List Char)) :=
  parse_message_chunks text w pyDelim

/-- The sequence of pages `SplitflapPrinter.print_stat` (source lines
451--498) sends to the display: the value is passed through
`filter_number`, a label is selected by `get_stat_prefix`, and depending on
whether label and value fit together the pages are the combined string
(preceded by a label flash unless suppressed), or the label then the value,
each printed with `print`.  `none` models any exception raised along the
way. -/
def print_stat_pages (fns : CharFns) (supported : List Char) (w : Nat)
    (current : List Char) (labels : Option (List (List Char))) (value : Int)
    (align : Align) (two_step : Bool) : Option (List (List Char)) :=
  match filter_number value w with
  | none => none
  | some v =>
    match labels with
    | none => print_pages v w
    | some pl =>
      match get_stat_label pl v w with
      | none => none
      | some p =>
        if p = [] then print_pages v w
        else if (p ++ ' ' :: v).length ≤ w then
          let first :=
            if two_step = true ∧
                already_displaying_label fns supported (some pl) current = false then
              print_pages p w
            else some []
          match first, print_pages (combined_str align p v w) w with
          | some f, some c => some (f ++ c)
          | _, _ => none
        else
          let first := if two_step = true then print_pages p w else some []
          match first, print_pages v w with
          | some f, some c => some (f ++ c)
          | _, _ => none

/-- The scheduling state of a `YouTubeStatTracker` (source lines 605--610):
its update rate in seconds and the monotonic timestamp of its last update,
`none` when it has never updated.  Time is modelled with `ℚ`. -/
structure Tracker where
  update_rate : ℚ
  last_update : Option ℚ

/-- The `for obj in self._stat_objects` loop of `YouTubeStats.get_sleep_time`
(source lines 580--584), accumulating the soonest `last_update +
update_rate`.  A tracker whose `last_update` is `None` makes the Python
expression `obj.last_update + obj.update_rate` raise a `TypeError`,
modelled by `none`. -/
def sleepLoop : List Tracker → Option ℚ → Option (Option ℚ)
  | [], soonest => some soonest
  | t :: rest, soonest =>
    match t.last_update with
    | none => none
    | some lu =>
      let next_update := lu + t.update_rate
      let soonest' :=
        match soonest with
        | none => some next_update
        | some s => if s > next_update then some next_update else some s
      sleepLoop rest soonest'

/-- Python's two-argument `max`: the first argument when it is at least the
second. -/
def pyMax (a b : ℚ) : ℚ := if b ≤ a then a else b

/-- `YouTubeStats.get_sleep_time` (source lines 575--588): the time until
the next tracker update, `max(soonest - monotonic(), 0)`, with `now` the
current monotonic time; `0` when there are no trackers. -/
def get_sleep_time (trackers : List Tracker) (now : ℚ) : Option ℚ :=
  match sleepLoop trackers none with
  | none => none
  | some none => some 0
  | some (some soonest) => some (pyMax (soonest - now) 0)

/-- The scheduled next-update time `last_update + update_rate` of a tracker
(source line 582), defined for trackers that have updated at least once. -/
def nextUpdate (t : Tracker) : ℚ := t.last_update.getD 0 + t.update_rate

/-- The statistics state of a `SubscriberCounter` (source lines 634--689):
the last fetched subscriber count (`none` before the first successful
fetch) and the difference stored by the latest fetch. -/
structure SubscriberCounter where
  subs : Option Int
  diff : Int

/-- The state update of a successful `SubscriberCounter.fetch` (source
lines 666--674) upon receiving `new_subs` from the API:
`old_subs = self.subs if self.subs else new_subs` (Python truthiness: both
`None` and `0` select `new_subs`), then `diff = new_subs - old_subs`. -/
def SubscriberCounter.fetch (st : SubscriberCounter) (new_subs : Int) : SubscriberCounter :=
  let old_subs :=
    match st.subs with
    | some s => if s = 0 then new_subs else s
    | none => new_subs
  { subs := some new_subs, diff := new_subs - old_subs }

/-! ## Helper lemmas -/

/-- A text no longer than the chunk size is returned whole, as the single
element of the chunk list (source lines 232--236). -/
theorem parse_of_le {text : List Char} {size : Nat} (delim : List Char)
    (h : text.length ≤ size) : parse_message_chunks text size delim = some [text] := by
  unfold parse_message_chunks
  rw [if_pos (Or.inr h)]

/-- `filter_char` maps a supported character to itself. -/
theorem filter_char_of_mem {fns : CharFns} {supported : List Char} {replacement : Char}
    {c : Char} (h : c ∈ supported) : filter_char fns supported replacement c = c := by
  unfold filter_char
  rw [if_pos h]

/-- With the default replacement `'?'`, one application of `filter_char`
produces a character that `filter_char` fixes: supported characters (and
supported case-swaps) are kept, and the replacement `'?'` is not
alphabetic, so it maps to itself. -/
theorem filter_char_idem (fns : CharFns) (supported : List Char)
    (hq : fns.isAlpha '?' = false) (c : Char) :
    filter_char fns supported '?' (filter_char fns supported '?' c) =
      filter_char fns supported '?' c := by
  by_cases h1 : c ∈ supported
  · rw [filter_char_of_mem h1, filter_char_of_mem h1]
  · unfold filter_char
    rw [if_neg h1]
    by_cases h2 : fns.isAlpha c = true
    · rw [if_pos h2]
      by_cases h3 : (if fns.isUpper c then fns.toLower c else fns.toUpper c) ∈ supported
      · rw [if_pos h3, if_pos h3]
      · rw [if_neg h3]
        by_cases h4 : '?' ∈ supported
        · rw [if_pos h4]
        · rw [if_neg h4, if_neg (by rw [hq]; exact Bool.false_ne_true)]
    · rw [if_neg h2]
      by_cases h4 : '?' ∈ supported
      · rw [if_pos h4]
      · rw [if_neg h4, if_neg (by rw [hq]; exact Bool.false_ne_true)]

/-- The accumulator pass of `get_sleep_time` over trackers that have all
updated: it returns the least `last_update + update_rate`. -/
theorem sleepLoop_all_some :
    ∀ (objs : List Tracker), (∀ t ∈ objs, t.last_update ≠ none) → ∀ a : ℚ,
      ∃ m, sleepLoop objs (some a) = some (some m) ∧ m ≤ a ∧
        (m = a ∨ ∃ t ∈ objs, nextUpdate t = m) ∧ ∀ t ∈ objs, m ≤ nextUpdate t := by
  intro objs
  induction objs with
  | nil => exact fun _ a => ⟨a, rfl, le_refl a, Or.inl rfl, fun t ht => absurd ht (by simp)⟩
  | cons t rest ih =>
    intro hall a
    obtain ⟨lu, hlu⟩ : ∃ lu, t.last_update = some lu := by
      rcases hl : t.last_update with _ | lu
      · exact absurd hl (hall t (by simp))
      · exact ⟨lu, rfl⟩
    have hnu : nextUpdate t = lu + t.update_rate := by
      unfold nextUpdate
      rw [hlu]
      rfl
    have hrest : ∀ t' ∈ rest, t'.last_update ≠ none := fun t' ht' =>
      hall t' (List.mem_cons_of_mem _ ht')
    have hstep : sleepLoop (t :: rest) (some a) =
        sleepLoop rest (if a > lu + t.update_rate then some (lu + t.update_rate) else some a) := by
      simp only [sleepLoop, hlu]
    by_cases hgt : a > lu + t.update_rate
    · obtain ⟨m, hm, hma, hmem, hmall⟩ := ih hrest (lu + t.update_rate)
      refine ⟨m, ?_, ?_, ?_, ?_⟩
      · rw [hstep, if_pos hgt]
        exact hm
      · exact (hma.trans_lt hgt).le
      · rcases hmem with h | ⟨t', ht', hnu'⟩
        · exact Or.inr ⟨t, by simp, by rw [hnu, h]⟩
        · exact Or.inr ⟨t', List.mem_cons_of_mem _ ht', hnu'⟩
      · intro t' ht'
        rcases List.mem_cons.mp ht' with h | h
        · rw [h, hnu]
          exact hma
        · exact hmall t' h
    · obtain ⟨m, hm, hma, hmem, hmall⟩ := ih hrest a
      refine ⟨m, ?_, hma, ?_, ?_⟩
      · rw [hstep, if_neg hgt]
        exact hm
      · rcases hmem with h | ⟨t', ht', hnu'⟩
        · exact Or.inl h
        · exact Or.inr ⟨t', List.mem_cons_of_mem _ ht', hnu'⟩
      · intro t' ht'
        rcases List.mem_cons.mp ht' with h | h
        · rw [h, hnu]
          exact le_trans hma (not_lt.mp hgt)
        · exact hmall t' h

/-- The element returned by `getLast?` is in the list. -/
theorem getLast?_mem : ∀ {l : List (List Char)} {r : List Char}, l.getLast? = some r → r ∈ l
  | [], _, h => Option.noConfusion h
  | [a], _, h => by
    rw [List.getLast?_singleton] at h
    exact (Option.some.injEq _ _ ▸ h : _ = _) ▸ List.mem_singleton_self a
  | a :: b :: l, r, h => by
    rw [List.getLast?_cons_cons] at h
    exact List.mem_cons_of_mem a (getLast?_mem h)

/-- The scan of `get_stat_prefix` computes, for each of its two slots, the
first satisfying element of the list (unless the slot is already filled). -/
theorem selectLoop_eq (w : Nat) (value : List Char) :
    ∀ (l : List (List Char)) (ls lc : Option (List Char)),
      selectLoop w value l ls lc =
        (ls.or (l.find? fun p => decide (p.length ≤ w)),
          lc.or (l.find? fun p => decide ((p ++ ' ' :: value).length ≤ w))) := by
  intro l
  induction l with
  | nil => intro ls lc; simp [selectLoop]
  | cons p rest ih =>
    intro ls lc
    have hstep : selectLoop w value (p :: rest) ls lc =
        selectLoop w value rest
          (if ls = none ∧ p.length ≤ w then some p else ls)
          (if lc = none ∧ (p ++ ' ' :: value).length ≤ w then some p else lc) := by
      simp only [selectLoop]
    rw [hstep, ih]
    congr 1
    · rcases ls with _ | a
      · by_cases hp : p.length ≤ w
        · rw [if_pos ⟨rfl, hp⟩,
            @List.find?_cons_of_pos _ (fun q => decide (q.length ≤ w)) p rest
              (decide_eq_true hp)]
          simp
        · rw [if_neg (fun hc => hp hc.2),
            @List.find?_cons_of_neg _ (fun q => decide (q.length ≤ w)) p rest
              (by simpa using hp)]
      · rw [if_neg (fun hc => Option.noConfusion hc.1)]
        simp
    · rcases lc with _ | a
      · by_cases hp : (p ++ ' ' :: value).length ≤ w
        · rw [if_pos ⟨rfl, hp⟩,
            @List.find?_cons_of_pos _ (fun q => decide ((q ++ ' ' :: value).length ≤ w)) p rest
              (decide_eq_true hp)]
          simp
        · rw [if_neg (fun hc => hp hc.2),
            @List.find?_cons_of_neg _ (fun q => decide ((q ++ ' ' :: value).length ≤ w)) p rest
              (by simpa using hp)]
      · rw [if_neg (fun hc => Option.noConfusion hc.1)]
        simp

/-- `get_stat_prefix` as two nested first-match searches over the sorted
label list, falling back to its last element. -/
theorem get_stat_label_eq (labels : List (List Char)) (value : List Char) (w : Nat) :
    get_stat_label labels value w =
      match (List.insertionSort lenDescRel labels).find?
          (fun p => decide ((p ++ ' ' :: value).length ≤ w)) with
      | some lc => some lc
      | none =>
        match (List.insertionSort lenDescRel labels).find? (fun p => decide (p.length ≤ w)) with
        | some ls => some ls
        | none => (List.insertionSort lenDescRel labels).getLast? := by
  simp only [get_stat_label]
  rw [selectLoop_eq]
  simp only [Option.none_or]
  rcases h2 : (List.insertionSort lenDescRel labels).find?
      (fun p => decide ((p ++ ' ' :: value).length ≤ w)) with _ | lc
  · rcases h1 : (List.insertionSort lenDescRel labels).find?
        (fun p => decide (p.length ≤ w)) with _ | ls <;> rw [h1] <;> simp
  · simp

/-- In a list sorted longest-first, the first element satisfying a predicate
is at least as long as every element satisfying it. -/
theorem sorted_find?_maximal {f : List Char → Bool} :
    ∀ {l : List (List Char)}, List.Sorted lenDescRel l →
      ∀ {r : List Char}, l.find? f = some r → ∀ p ∈ l, f p = true → p.length ≤ r.length := by
  intro l
  induction l with
  | nil => intro _ r hr; exact absurd hr (by simp)
  | cons q rest ih =>
    intro hs r hr p hp hfp
    by_cases hq : f q = true
    · rw [List.find?_cons_of_pos _ hq] at hr
      obtain rfl : q = r := by injection hr
      rcases List.mem_cons.mp hp with h | h
      · exact le_of_eq (congrArg _ h)
      · exact List.rel_of_sorted_cons hs p h
    · rw [List.find?_cons_of_neg _ hq] at hr
      rcases List.mem_cons.mp hp with h | h
      · exact absurd (h ▸ hfp) hq
      · exact ih hs.of_cons hr p h hfp

/-- In a list sorted longest-first, the last element is at most as long as
every element. -/
theorem sorted_getLast?_minimal :
    ∀ {l : List (List Char)}, List.Sorted lenDescRel l →
      ∀ {r : List Char}, l.getLast? = some r → ∀ p ∈ l, r.length ≤ p.length := by
  intro l
  induction l with
  | nil => intro _ r hr; exact absurd hr (by simp)
  | cons q rest ih =>
    intro hs r hr p hp
    rcases rest with _ | ⟨q', rest'⟩
    · rw [List.getLast?_singleton] at hr
      obtain rfl : q = r := by injection hr
      rcases List.mem_cons.mp hp with h | h
      · exact le_of_eq (congrArg _ h.symm)
      · exact absurd h (by simp)
    · rw [List.getLast?_cons_cons] at hr
      rcases List.mem_cons.mp hp with h | h
      · have hrmem : r ∈ q' :: rest' := getLast?_mem hr
        exact h ▸ List.rel_of_sorted_cons hs r hrmem
      · exact ih hs.of_cons hr p h

/-- The empty list is a prefix of any list. -/
theorem pre_nil (l : List Char) : [] <+: l := ⟨l, rfl⟩

/-- Extending a prefix with the common head. -/
theorem pre_cons {w l : List Char} (c : Char) (h : w <+: l) : (c :: w) <+: (c :: l) := by
  obtain ⟨t, ht⟩ := h
  exact ⟨t, by rw [List.cons_append, ht]⟩

/-- A prefix is a contiguous segment. -/
theorem seg_of_pre {w l : List Char} (h : w <+: l) : w <:+: l := by
  obtain ⟨t, ht⟩ := h
  exact ⟨[], t, by rw [List.nil_append, ht]⟩

/-- A contiguous segment of the tail is one of the whole list. -/
theorem seg_cons {w l : List Char} (c : Char) (h : w <:+: l) : w <:+: c :: l := by
  obtain ⟨u, t, hut⟩ := h
  exact ⟨c :: u, t, by rw [List.cons_append, List.cons_append, ← hut]⟩

/-- A contiguous segment survives appending on the right. -/
theorem seg_append_left {w w1 : List Char} (rest : List Char) (h : w <:+: w1) :
    w <:+: w1 ++ rest := by
  obtain ⟨u, t, hut⟩ := h
  exact ⟨u, t ++ rest, by rw [← hut]; simp⟩

/-- A contiguous segment survives appending on the left. -/
theorem seg_append_right {w w2 : List Char} (pre : List Char) (h : w <:+: w2) :
    w <:+: pre ++ w2 := by
  obtain ⟨u, t, hut⟩ := h
  exact ⟨pre ++ u, t, by rw [← hut]; simp⟩

/-- Decomposition of a list around two adjacent positions. -/
theorem list_decomp {α : Type} (l : List α) (i : Nat) (h : i + 1 < l.length) :
    l = l.take i ++ l[i] :: l[i + 1] :: l.drop (i + 2) := by
  have h1 : i < l.length := by omega
  conv_lhs => rw [← List.take_append_drop i l]
  rw [List.drop_eq_getElem_cons h1, List.drop_eq_getElem_cons h]

/-- Every piece produced by `chunksOf n` has length at most `n`. -/
theorem chunksOf_le (n : Nat) (hn : 0 < n) : ∀ l, ∀ c ∈ chunksOf n l, c.length ≤ n := by
  refine chunksOf.induct n (fun l => ∀ c ∈ chunksOf n l, c.length ≤ n) ?_ ?_ ?_
  · intro c hc
    rw [chunksOf.eq_def] at hc
    simp at hc
  · intro x hx h0 c hc
    omega
  · intro x hx h0 ih c hc
    rw [chunksOf.eq_def, dif_neg hx, dif_neg h0] at hc
    rcases List.mem_cons.mp hc with h | h
    · exact h ▸ List.length_take_le n x
    · exact ih c h

/-- Concatenating the pieces of `chunksOf n` gives back the word. -/
theorem chunksOf_flatten (n : Nat) : ∀ l, (chunksOf n l).flatten = l := by
  refine chunksOf.induct n (fun l => (chunksOf n l).flatten = l) ?_ ?_ ?_
  · show (chunksOf n []).flatten = []
    rw [chunksOf.eq_def]
    simp
  · intro x hx h0
    rw [chunksOf.eq_def, dif_neg hx, dif_pos h0]
    simp
  · intro x hx h0 ih
    rw [chunksOf.eq_def, dif_neg hx, dif_neg h0]
    rw [List.flatten_cons, ih, List.take_append_drop]

/-- Unfolding `splitWords` on two leading delimiter characters. -/
theorem splitWords_dd {delim : List Char} {c d : Char} (hc : c ∈ delim) (hd : d ∈ delim)
    (rest : List Char) :
    splitWords delim (c :: d :: rest) = splitWords delim (d :: rest) := by
  rw [splitWords.eq_def]
  simp [hc, hd]

/-- Unfolding `splitWords` on a delimiter followed by a word character. -/
theorem splitWords_dw {delim : List Char} {c d : Char} (hc : c ∈ delim) (hd : d ∉ delim)
    (rest : List Char) :
    splitWords delim (c :: d :: rest) = [] :: splitWords delim (d :: rest) := by
  rw [splitWords.eq_def]
  simp [hc, hd]

/-- Unfolding `splitWords` on a single trailing delimiter. -/
theorem splitWords_dlast {delim : List Char} {c : Char} (hc : c ∈ delim) :
    splitWords delim [c] = [[], []] := by
  rw [splitWords.eq_def]
  simp [hc]

/-- Unfolding `splitWords` on a word character. -/
theorem splitWords_w {delim : List Char} {c : Char} (hc : c ∉ delim) (rest : List Char) :
    splitWords delim (c :: rest) = (splitWords delim rest).modifyHead (c :: ·) := by
  rw [splitWords.eq_def]
  simp [hc]

/-- `splitWords` never returns the empty list. -/
theorem splitWords_ne_nil (delim : List Char) : ∀ l, splitWords delim l ≠ [] := by
  refine splitWords.induct delim (fun l => splitWords delim l ≠ []) ?_ ?_ ?_ ?_ ?_
  · simp [splitWords]
  · intro c hc d rest' hd ih
    rw [splitWords_dd hc hd]
    exact ih
  · intro c hc d rest' hd ih
    rw [splitWords_dw hc hd]
    simp
  · intro c hc
    rw [splitWords_dlast hc]
    simp
  · intro c rest hc ih
    rw [splitWords_w hc]
    rcases h : splitWords delim rest with _ | ⟨a, t⟩
    · exact absurd h ih
    · simp

/-- Concatenating the tokens of `splitWords` gives the input with its
delimiter characters removed. -/
theorem splitWords_flatten (delim : List Char) :
    ∀ l, (splitWords delim l).flatten = l.filter (fun ch => !decide (ch ∈ delim)) := by
  refine splitWords.induct delim
    (fun l => (splitWords delim l).flatten = l.filter (fun ch => !decide (ch ∈ delim)))
    ?_ ?_ ?_ ?_ ?_
  · simp [splitWords]
  · intro c hc d rest' hd ih
    rw [splitWords_dd hc hd, ih]
    simp [List.filter_cons, hc, hd]
  · intro c hc d rest' hd ih
    rw [splitWords_dw hc hd, List.flatten_cons, List.nil_append, ih]
    simp [List.filter_cons, hc, hd]
  · intro c hc
    rw [splitWords_dlast hc]
    simp [List.filter_cons, hc]
  · intro c rest hc ih
    rcases h : splitWords delim rest with _ | ⟨a, t⟩
    · exact absurd h (splitWords_ne_nil delim rest)
    · rw [splitWords_w hc, h]
      rw [h, List.flatten_cons] at ih
      have hmod : ((a :: t).modifyHead (c :: ·)) = (c :: a) :: t := rfl
      rw [hmod, List.flatten_cons, List.cons_append, ih, List.filter_cons]
      simp [hc]

/-- A string starting with a delimiter character splits with a leading
empty token. -/
theorem splitWords_head_of_delim (delim : List Char) :
    ∀ (l : List Char) (c : Char), c ∈ delim → ∃ tl, splitWords delim (c :: l) = [] :: tl := by
  intro l
  induction l with
  | nil =>
    intro c hc
    exact ⟨[[]], splitWords_dlast hc⟩
  | cons d rest ih =>
    intro c hc
    by_cases hd : d ∈ delim
    · obtain ⟨tl, htl⟩ := ih d hd
      exact ⟨tl, by rw [splitWords_dd hc hd, htl]⟩
    · exact ⟨splitWords delim (d :: rest), splitWords_dw hc hd rest⟩

/-- Shape of `splitWords`: a head token that is a prefix of the input,
followed by tokens that are contiguous segments of the input. -/
theorem splitWords_seg (delim : List Char) :
    ∀ l, ∃ hd tl, splitWords delim l = hd :: tl ∧ hd <+: l ∧ ∀ w ∈ tl, w <:+: l := by
  refine splitWords.induct delim
    (fun l => ∃ hd tl, splitWords delim l = hd :: tl ∧ hd <+: l ∧ ∀ w ∈ tl, w <:+: l)
    ?_ ?_ ?_ ?_ ?_
  · exact ⟨[], [], rfl, pre_nil [], by simp⟩
  · intro c hc d rest' hd ih
    obtain ⟨h1, tl, heq, _, htl⟩ := ih
    obtain ⟨tl2, htl2⟩ := splitWords_head_of_delim delim rest' d hd
    have hh : h1 = [] ∧ tl = tl2 := by
      have := heq.symm.trans htl2
      exact ⟨(List.cons.injEq _ _ _ _ ▸ this).1, (List.cons.injEq _ _ _ _ ▸ this).2⟩
    refine ⟨[], tl, ?_, pre_nil _, ?_⟩
    · rw [splitWords_dd hc hd, heq, hh.1]
    · intro w hw
      exact seg_cons c (htl w hw)
  · intro c hc d rest' hd ih
    obtain ⟨h1, tl, heq, hpre, htl⟩ := ih
    refine ⟨[], h1 :: tl, ?_, pre_nil _, ?_⟩
    · rw [splitWords_dw hc hd, heq]
    · intro w hw
      rcases List.mem_cons.mp hw with h | h
      · exact h ▸ seg_cons c (seg_of_pre hpre)
      · exact seg_cons c (htl w h)
  · intro c hc
    exact ⟨[], [[]], splitWords_dlast hc, pre_nil _, by simp⟩
  · intro c rest hc ih
    obtain ⟨h1, tl, heq, hpre, htl⟩ := ih
    refine ⟨c :: h1, tl, ?_, pre_cons c hpre, ?_⟩
    · rw [splitWords_w hc, heq]
      rfl
    · intro w hw
      exact seg_cons c (htl w hw)

/-- Every token of `splitWords` is a contiguous segment of the input. -/
theorem splitWords_seg_mem (delim : List Char) (l : List Char) :
    ∀ w ∈ splitWords delim l, w <:+: l := by
  obtain ⟨hd, tl, heq, hpre, htl⟩ := splitWords_seg delim l
  intro w hw
  rw [heq] at hw
  rcases List.mem_cons.mp hw with h | h
  · exact h ▸ seg_of_pre hpre
  · exact htl w h

/-- Every word in the output of `hardSplit` fits the chunk size. -/
theorem hardSplit_le {size : Nat} (hs : 0 < size) (ws : List (List Char)) :
    ∀ c ∈ hardSplit size ws, c.length ≤ size := by
  intro c hc
  obtain ⟨a, ha, hca⟩ := List.mem_flatMap.mp hc
  by_cases h : size < a.length
  · rw [if_pos h] at hca
    exact chunksOf_le size hs a c hca
  · rw [if_neg h] at hca
    have hceq : c = a := by simpa using hca
    exact hceq ▸ Nat.le_of_not_lt h

/-- `hardSplit` preserves the concatenation of the words. -/
theorem hardSplit_flatten (size : Nat) :
    ∀ ws : List (List Char), (hardSplit size ws).flatten = ws.flatten := by
  intro ws
  induction ws with
  | nil => rfl
  | cons w rest ih =>
    unfold hardSplit at ih ⊢
    rw [List.flatMap_cons, List.flatten_append, ih, List.flatten_cons]
    by_cases h : size < w.length
    · rw [if_pos h, chunksOf_flatten]
    · rw [if_neg h]
      simp

/-- A word that already fits the chunk size survives `hardSplit`. -/
theorem mem_hardSplit_of_le {size : Nat} {ws : List (List Char)} {w : List Char}
    (hw : w ∈ ws) (hl : w.length ≤ size) : w ∈ hardSplit size ws := by
  refine List.mem_flatMap.mpr ⟨w, hw, ?_⟩
  rw [if_neg (by omega)]
  simp

/-- Filtering a concatenation is the concatenation of the filtered parts. -/
theorem filter_flatten (p : Char → Bool) :
    ∀ L : List (List Char), L.flatten.filter p = L.flatMap (fun l => l.filter p) := by
  intro L
  induction L with
  | nil => rfl
  | cons l rest ih =>
    rw [List.flatten_cons, List.filter_append, ih, List.flatMap_cons]

/-- Filtering twice with the same predicate filters once. -/
theorem filter_idem (p : Char → Bool) (l : List Char) :
    (l.filter p).filter p = l.filter p := by
  rw [List.filter_filter]
  congr 1
  funext a
  rw [Bool.and_self]

/-- `joinD` on a word followed by a nonempty block. -/
theorem joinD_cons_of_ne (delim : List Char) (w : List Char) {ws : List (List Char)}
    (h : ws ≠ []) : joinD delim (w :: ws) = w ++ delim ++ joinD delim ws := by
  rcases ws with _ | ⟨a, t⟩
  · exact absurd rfl h
  · rfl

/-- `joinD` of the concatenation of two nonempty blocks inserts one
delimiter string between them. -/
theorem joinD_append (delim : List Char) :
    ∀ (ws1 ws2 : List (List Char)), ws1 ≠ [] → ws2 ≠ [] →
      joinD delim (ws1 ++ ws2) = joinD delim ws1 ++ delim ++ joinD delim ws2 := by
  intro ws1
  induction ws1 with
  | nil => intro ws2 h1 _; exact absurd rfl h1
  | cons w rest ih =>
    intro ws2 h1 h2
    rcases rest with _ | ⟨a, t⟩
    · rw [List.singleton_append, joinD_cons_of_ne delim w h2]
      rfl
    · rw [List.cons_append,
        joinD_cons_of_ne delim w (by simp : (a :: t) ++ ws2 ≠ []),
        ih ws2 (by simp) h2,
        joinD_cons_of_ne delim w (by simp : (a :: t) ≠ ([] : List (List Char)))]
      simp [List.append_assoc]

/-- Invariant preservation through the re-merge loop: any property of the
word list closed under replacing two adjacent words by their merge (with
the delimiter string in between, when the merge fits the chunk size) holds
of every successful result of the loop. -/
theorem mergeLoop_inv (size : Nat) (delim : List Char) (Q : List (List Char) → Prop)
    (hQ : ∀ pre w1 w2 post, (w1 ++ delim ++ w2).length ≤ size →
      Q (pre ++ w1 :: w2 :: post) → Q (pre ++ (w1 ++ delim ++ w2) :: post)) :
    ∀ words index finished res,
      mergeLoop size delim words index finished = some res → Q words → Q res := by
  intro words index finished
  induction words, index, finished using mergeLoop.induct size delim with
  | case1 words index finished hstop =>
    intro res hres hQw
    rw [mergeLoop.eq_def, dif_pos hstop] at hres
    obtain rfl : words = res := by injection hres
    exact hQw
  | case2 words index finished hstop hr h hm ih =>
    intro res hres hQw
    rw [mergeLoop.eq_def, dif_neg hstop, dif_pos hr, dif_pos h, if_pos hm] at hres
    refine ih res hres ?_
    have hd : words = words.take 0 ++ words[0] :: words[0 + 1] :: words.drop (0 + 2) :=
      list_decomp words 0 (by omega)
    have := hQ (words.take 0) words[0] words[0 + 1] (words.drop (0 + 2)) hm (hd ▸ hQw)
    simpa using this
  | case3 words index finished hstop hr h hm ih =>
    intro res hres hQw
    rw [mergeLoop.eq_def, dif_neg hstop, dif_pos hr, dif_pos h, if_neg hm] at hres
    exact ih res hres hQw
  | case4 words index finished hstop hr h =>
    intro res hres hQw
    rw [mergeLoop.eq_def, dif_neg hstop, dif_pos hr, dif_neg h] at hres
    exact Option.noConfusion hres
  | case5 words index finished hstop hr h hm ih =>
    intro res hres hQw
    rw [mergeLoop.eq_def, dif_neg hstop, dif_neg hr, dif_pos h, if_pos hm] at hres
    refine ih res hres ?_
    have hd : words =
        words.take index ++ words[index] :: words[index + 1] :: words.drop (index + 2) :=
      list_decomp words index h
    exact hQ (words.take index) words[index] words[index + 1] (words.drop (index + 2)) hm
      (hd ▸ hQw)
  | case6 words index finished hstop hr h hm ih =>
    intro res hres hQw
    rw [mergeLoop.eq_def, dif_neg hstop, dif_neg hr, dif_pos h, if_neg hm] at hres
    exact ih res hres hQw
  | case7 words index finished hstop hr h =>
    intro res hres hQw
    rw [mergeLoop.eq_def, dif_neg hstop, dif_neg hr, dif_neg h] at hres
    exact Option.noConfusion hres

/-- Segment containment is reflexive. -/
theorem seg_refl (l : List Char) : l <:+: l := ⟨[], [], by simp⟩

/-- Segment containment is transitive. -/
theorem seg_trans {a b c : List Char} (h1 : a <:+: b) (h2 : b <:+: c) : a <:+: c := by
  obtain ⟨u, t, hut⟩ := h1
  obtain ⟨s, r, hsr⟩ := h2
  exact ⟨s ++ u, t ++ r, by rw [← hsr, ← hut]; simp [List.append_assoc]⟩

/-- The left word of a merge is a segment of the merge. -/
theorem seg_merge_left (w1 delim w2 : List Char) : w1 <:+: w1 ++ delim ++ w2 :=
  ⟨[], delim ++ w2, by simp [List.append_assoc]⟩

/-- The right word of a merge is a segment of the merge. -/
theorem seg_merge_right (w1 delim w2 : List Char) : w2 <:+: w1 ++ delim ++ w2 :=
  ⟨w1 ++ delim, [], by simp⟩

/-! ## Claims -/

/-- C9: for every string `s` with length at most the chunk width,
`parse_message_chunks` returns the one-element list containing `s`
unchanged. -/
theorem C9_short_text_single_chunk (text : List Char) (size : Nat) (delim : List Char)
    (h : text.length ≤ size) : parse_message_chunks text size delim = some [text] :=
  parse_of_le delim h

/-- Witness for C9 at the string `"YouTube!"` and width `8`. -/
theorem C9_short_text_single_chunk_witness :
    ("YouTube!".toList.length ≤ 8) ∧
      parse_message_chunks "YouTube!".toList 8 pyDelim = some ["YouTube!".toList] :=
  ⟨by decide, C9_short_text_single_chunk "YouTube!".toList 8 pyDelim (by decide)⟩

set_option maxRecDepth 100000 in
/-- C1, counterexample to the claim as stated: at width `3` (which the claim
includes via "width >= 3") the numeric input `1000` is returned as the
unmodified four-character decimal string, exceeding the width, because the
code requires `num_modules - (len("E+") + 1) > 0`, i.e. width at least `4`;
and at width `4` a 100-digit number makes the computed suffix `"E+100"`
longer than the display, the Python slice bound goes negative, and the
`assert len(out) <= num_modules` fails (an `AssertionError`, modelled by
`none`), so no string of length at most the width is returned. -/
theorem C1_filter_number_counterexample :
    (filter_number 1000 3 = some "1000".toList ∧ 3 < "1000".toList.length) ∧
      filter_number (10 ^ 99) 4 = none := by
  constructor
  · exact ⟨by decide, by decide⟩
  · decide

/-- C1, amended: the unmodified decimal string is returned whenever it fits
the width or the width is at most `3` (too small for the code to attempt
scientific notation); and for width at least `4`, an over-long number whose
computed scientific suffix fits within the width is truncated to exactly
the width, so the result length is at most the width. -/
theorem C1_filter_number_length (num : Int) (w : Nat) :
    ((pyStrInt num).length ≤ w ∨ w ≤ 3 → filter_number num w = some (pyStrInt num)) ∧
    (4 ≤ w → w < (pyStrInt num).length → (sciSuffix num w).length ≤ w →
      filter_number num w =
          some (pyTake (pyStrInt num) ((w : Int) - (sciSuffix num w).length) ++ sciSuffix num w) ∧
        (pyTake (pyStrInt num) ((w : Int) - (sciSuffix num w).length) ++ sciSuffix num w).length
          = w) := by
  constructor
  · intro h
    unfold filter_number
    rw [if_neg]
    intro ⟨h1, h2⟩
    rcases h with h | h
    · omega
    · omega
  · intro h4 hlong hfit
    have hlen : (pyTake (pyStrInt num) ((w : Int) - (sciSuffix num w).length)
        ++ sciSuffix num w).length = w := by
      rw [List.length_append]
      unfold pyTake
      rw [if_pos (by omega)]
      rw [List.length_take]
      have ht : ((w : Int) - (sciSuffix num w).length).toNat = w - (sciSuffix num w).length := by
        omega
      rw [ht]
      omega
    refine ⟨?_, hlen⟩
    unfold filter_number
    rw [if_pos ⟨hlong, by omega⟩]
    simp only
    rw [if_pos (le_of_eq hlen)]

/-- Witness for the amended C1 at the spec's example `123456789`, width `8`:
the suffix fits and the result is the 8-character `"12345E+4"`. -/
theorem C1_filter_number_length_witness :
    (4 ≤ 8 ∧ 8 < (pyStrInt 123456789).length ∧ (sciSuffix 123456789 8).length ≤ 8) ∧
      filter_number 123456789 8 = some "12345E+4".toList := by
  refine ⟨⟨by decide, by decide, by decide⟩, ?_⟩
  have h := (C1_filter_number_length 123456789 8).2 (by decide) (by decide) (by decide)
  rw [h.1]
  decide

/-- C8: with the default replacement `'?'` (not an alphabetic character),
`filter_string` is idempotent for every supported-character set. -/
theorem C8_filter_string_idempotent (fns : CharFns) (supported : List Char)
    (s : List Char) (h : fns.isAlpha '?' = false) :
    filter_string fns supported '?' (filter_string fns supported '?' s) =
      filter_string fns supported '?' s := by
  unfold filter_string
  rw [List.map_map]
  exact List.map_congr_left fun c _ => filter_char_idem fns supported h c

/-- Witness for C8 with the ASCII character primitives, a concrete
supported set, and a concrete string. -/
theorem C8_filter_string_idempotent_witness :
    (asciiFns.isAlpha '?' = false) ∧
      filter_string asciiFns "ABCDEFGH ".toList '?'
          (filter_string asciiFns "ABCDEFGH ".toList '?' "aB c?d!".toList) =
        filter_string asciiFns "ABCDEFGH ".toList '?' "aB c?d!".toList :=
  ⟨by decide,
    C8_filter_string_idempotent asciiFns "ABCDEFGH ".toList "aB c?d!".toList (by decide)⟩

/-- C10: `filter_string` never inserts, deletes or moves characters: the
output has exactly the length of the input, and every input character that
is already supported appears unchanged at the same position. -/
theorem C10_filter_string_preserves (fns : CharFns) (supported : List Char)
    (replacement : Char) (s : List Char) :
    (filter_string fns supported replacement s).length = s.length ∧
      ∀ (i : Nat) (c : Char), s[i]? = some c → c ∈ supported →
        (filter_string fns supported replacement s)[i]? = some c := by
  constructor
  · exact List.length_map s _
  · intro i c hi hc
    unfold filter_string
    rw [List.getElem?_map, hi]
    exact congrArg some (filter_char_of_mem hc)

/-- Witness for C10 at a concrete string: length preserved and the
supported character `'B'` at index 1 unchanged. -/
theorem C10_filter_string_preserves_witness :
    (filter_string asciiFns "AB".toList '?' "xBy".toList).length = "xBy".toList.length ∧
      (filter_string asciiFns "AB".toList '?' "xBy".toList)[1]? = some 'B' :=
  ⟨(C10_filter_string_preserves asciiFns "AB".toList '?' "xBy".toList).1,
    (C10_filter_string_preserves asciiFns "AB".toList '?' "xBy".toList).2 1 'B'
      (by decide) (by decide)⟩

/-- C7: evaluation at the failing input.  A channel previously fetched with
`0` subscribers now reports `5`: the documented difference is `5`, but the
Python truthiness test `self.subs if self.subs else new_subs` treats the
stored `0` like `None`, so the code stores `diff = 0`. -/
theorem C7_subscriber_diff_truthiness :
    (SubscriberCounter.fetch ⟨some 0, 0⟩ 5).subs = some 5 ∧
      (SubscriberCounter.fetch ⟨some 0, 0⟩ 5).diff = 0 ∧
      (SubscriberCounter.fetch ⟨some 0, 0⟩ 5).diff ≠ 5 - 0 := by
  refine ⟨by decide, by decide, by decide⟩

/-- C4, counterexample to the claim as stated: a tracker that has never
updated does not contribute zero sleep time; instead
`obj.last_update + obj.update_rate` is `None + 120`, a `TypeError`
(modelled by `none`), whatever the current time is. -/
theorem C4_sleep_counterexample :
    get_sleep_time [⟨120, none⟩] 17 = none ∧ get_sleep_time [⟨120, none⟩] 17 ≠ some 0 := by
  refine ⟨rfl, ?_⟩
  intro h
  rw [(rfl : get_sleep_time [⟨120, none⟩] 17 = none)] at h
  exact Option.noConfusion h

/-- C4, amended: for a non-empty collection of trackers that have all
updated at least once, `get_sleep_time` returns the minimum over the
trackers of `(last_update + update_rate)`, minus `now`, floored at zero.
(A tracker with `last_update = None` instead raises a `TypeError`; the
"immediately due" behaviour for such trackers lives in
`YouTubeStatTracker.run`, not in `get_sleep_time`.) -/
theorem C4_sleep_time_min (objs : List Tracker) (now : ℚ) (hne : objs ≠ [])
    (hall : ∀ t ∈ objs, t.last_update ≠ none) :
    ∃ m, get_sleep_time objs now = some (pyMax (m - now) 0) ∧
      (∃ t ∈ objs, nextUpdate t = m) ∧ ∀ t ∈ objs, m ≤ nextUpdate t := by
  rcases objs with _ | ⟨t, rest⟩
  · exact absurd rfl hne
  obtain ⟨lu, hlu⟩ : ∃ lu, t.last_update = some lu := by
    rcases hl : t.last_update with _ | lu
    · exact absurd hl (hall t (by simp))
    · exact ⟨lu, rfl⟩
  have hnu : nextUpdate t = lu + t.update_rate := by
    unfold nextUpdate
    rw [hlu]
    rfl
  obtain ⟨m, hm, hma, hmem, hmall⟩ :=
    sleepLoop_all_some rest (fun t' ht' => hall t' (List.mem_cons_of_mem _ ht'))
      (lu + t.update_rate)
  refine ⟨m, ?_, ?_, ?_⟩
  · unfold get_sleep_time
    have hstep : sleepLoop (t :: rest) none = sleepLoop rest (some (lu + t.update_rate)) := by
      simp only [sleepLoop, hlu]
    rw [hstep, hm]
  · rcases hmem with h | ⟨t', ht', hnu'⟩
    · exact ⟨t, by simp, by rw [hnu, h]⟩
    · exact ⟨t', List.mem_cons_of_mem _ ht', hnu'⟩
  · intro t' ht'
    rcases List.mem_cons.mp ht' with h | h
    · rw [h, hnu]
      exact hma
    · exact hmall t' h

/-- Witness for the amended C4: two updated trackers with next updates at
`130` and `65`; at time `17` the sleep time is `65 - 17 = 48`. -/
theorem C4_sleep_time_min_witness :
    (([⟨120, some 10⟩, ⟨60, some 5⟩] : List Tracker) ≠ []) ∧
      ∃ m, get_sleep_time [⟨120, some 10⟩, ⟨60, some 5⟩] 17 = some (pyMax (m - 17) 0) ∧
        (∃ t ∈ ([⟨120, some 10⟩, ⟨60, some 5⟩] : List Tracker), nextUpdate t = m) ∧
        ∀ t ∈ ([⟨120, some 10⟩, ⟨60, some 5⟩] : List Tracker), m ≤ nextUpdate t :=
  ⟨by simp,
    C4_sleep_time_min [⟨120, some 10⟩, ⟨60, some 5⟩] 17 (by simp)
      (by intro t ht; fin_cases ht <;> simp)⟩

/-- C5: for a non-empty candidate label list, `get_stat_prefix` returns a
label of the list; it is a longest label whose `label + ' ' + value` fits
the width (length equal to the width counts as fitting) when one exists;
otherwise a longest label fitting the width alone when one exists;
otherwise a shortest candidate label. -/
theorem C5_get_stat_label_best (labels : List (List Char)) (value : List Char) (w : Nat)
    (hne : labels ≠ []) :
    ∃ r, get_stat_label labels value w = some r ∧ r ∈ labels ∧
      ((∃ p ∈ labels, (p ++ ' ' :: value).length ≤ w) →
        (r ++ ' ' :: value).length ≤ w ∧
          ∀ p ∈ labels, (p ++ ' ' :: value).length ≤ w → p.length ≤ r.length) ∧
      ((¬ ∃ p ∈ labels, (p ++ ' ' :: value).length ≤ w) → (∃ p ∈ labels, p.length ≤ w) →
        r.length ≤ w ∧ ∀ p ∈ labels, p.length ≤ w → p.length ≤ r.length) ∧
      ((¬ ∃ p ∈ labels, (p ++ ' ' :: value).length ≤ w) → (¬ ∃ p ∈ labels, p.length ≤ w) →
        ∀ p ∈ labels, r.length ≤ p.length) := by
  have hperm := List.perm_insertionSort lenDescRel labels
  have hsort : List.Sorted lenDescRel (List.insertionSort lenDescRel labels) :=
    List.sorted_insertionSort lenDescRel labels
  have hmem : ∀ p : List Char, p ∈ List.insertionSort lenDescRel labels ↔ p ∈ labels :=
    fun p => hperm.mem_iff
  rw [get_stat_label_eq]
  rcases h2 : (List.insertionSort lenDescRel labels).find?
      (fun p => decide ((p ++ ' ' :: value).length ≤ w)) with _ | lc
  · have hno2 : ∀ p ∈ labels, ¬ (p ++ ' ' :: value).length ≤ w := by
      intro p hp
      have := List.find?_eq_none.mp h2 p ((hmem p).mpr hp)
      simpa using this
    rcases h1 : (List.insertionSort lenDescRel labels).find?
        (fun p => decide (p.length ≤ w)) with _ | ls
    · have hno1 : ∀ p ∈ labels, ¬ p.length ≤ w := by
        intro p hp
        have := List.find?_eq_none.mp h1 p ((hmem p).mpr hp)
        simpa using this
      have hsne : List.insertionSort lenDescRel labels ≠ [] := by
        intro h
        have hlen := congrArg List.length h
        rw [List.length_insertionSort] at hlen
        exact hne (List.length_eq_zero.mp hlen)
      obtain ⟨r, hr⟩ : ∃ r, (List.insertionSort lenDescRel labels).getLast? = some r := by
        rcases hl : (List.insertionSort lenDescRel labels).getLast? with _ | r
        · exact absurd (List.getLast?_eq_none_iff.mp hl) hsne
        · exact ⟨r, rfl⟩
      refine ⟨r, by rw [h1, hr], (hmem r).mp (getLast?_mem hr), ?_, ?_, ?_⟩
      · intro ⟨p, hp, hfit⟩
        exact absurd hfit (hno2 p hp)
      · intro _ ⟨p, hp, hfit⟩
        exact absurd hfit (hno1 p hp)
      · intro _ _ p hp
        exact sorted_getLast?_minimal hsort hr p ((hmem p).mpr hp)
    · have hlsmem : ls ∈ labels := (hmem ls).mp (List.mem_of_find?_eq_some h1)
      have hlsfit : ls.length ≤ w := by simpa using List.find?_some h1
      refine ⟨ls, by rw [h1], hlsmem, ?_, ?_, ?_⟩
      · intro ⟨p, hp, hfit⟩
        exact absurd hfit (hno2 p hp)
      · intro _ _
        exact ⟨hlsfit, fun p hp hpfit =>
          sorted_find?_maximal hsort h1 p ((hmem p).mpr hp) (decide_eq_true hpfit)⟩
      · intro _ hnone
        exact absurd ⟨ls, hlsmem, hlsfit⟩ hnone
  · have hlcmem : lc ∈ labels := (hmem lc).mp (List.mem_of_find?_eq_some h2)
    have hlcfit : (lc ++ ' ' :: value).length ≤ w := by simpa using List.find?_some h2
    refine ⟨lc, rfl, hlcmem, ?_, ?_, ?_⟩
    · intro _
      exact ⟨hlcfit, fun p hp hpfit =>
        sorted_find?_maximal hsort h2 p ((hmem p).mpr hp) (decide_eq_true hpfit)⟩
    · intro hnone _
      exact absurd ⟨lc, hlcmem, hlcfit⟩ hnone
    · intro hnone _
      exact absurd ⟨lc, hlcmem, hlcfit⟩ hnone

/-- Witness for C5 at the spec's example: labels
`["Subscribers", "Subs", "Sub"]`, value `"123"`, width `8`.  The
boundary-inclusive fit makes `"Subs 123"` (length 8) admissible, so the
selected label is `"Subs"`. -/
theorem C5_get_stat_label_best_witness :
    get_stat_label ["Subscribers".toList, "Subs".toList, "Sub".toList] "123".toList 8 =
        some "Subs".toList ∧
      (["Subscribers".toList, "Subs".toList, "Sub".toList] ≠ ([] : List (List Char))) ∧
      ∃ r, get_stat_label ["Subscribers".toList, "Subs".toList, "Sub".toList] "123".toList 8 =
          some r ∧
        r ∈ ["Subscribers".toList, "Subs".toList, "Sub".toList] ∧
        ((∃ p ∈ ["Subscribers".toList, "Subs".toList, "Sub".toList],
            (p ++ ' ' :: "123".toList).length ≤ 8) →
          (r ++ ' ' :: "123".toList).length ≤ 8 ∧
            ∀ p ∈ ["Subscribers".toList, "Subs".toList, "Sub".toList],
              (p ++ ' ' :: "123".toList).length ≤ 8 → p.length ≤ r.length) ∧
        ((¬ ∃ p ∈ ["Subscribers".toList, "Subs".toList, "Sub".toList],
            (p ++ ' ' :: "123".toList).length ≤ 8) →
          (∃ p ∈ ["Subscribers".toList, "Subs".toList, "Sub".toList], p.length ≤ 8) →
          r.length ≤ 8 ∧ ∀ p ∈ ["Subscribers".toList, "Subs".toList, "Sub".toList],
            p.length ≤ 8 → p.length ≤ r.length) ∧
        ((¬ ∃ p ∈ ["Subscribers".toList, "Subs".toList, "Sub".toList],
            (p ++ ' ' :: "123".toList).length ≤ 8) →
          (¬ ∃ p ∈ ["Subscribers".toList, "Subs".toList, "Sub".toList], p.length ≤ 8) →
          ∀ p ∈ ["Subscribers".toList, "Subs".toList, "Sub".toList], r.length ≤ p.length) :=
  ⟨by decide, by decide,
    C5_get_stat_label_best ["Subscribers".toList, "Subs".toList, "Sub".toList] "123".toList 8
      (by decide)⟩

/-- C2: whenever `parse_message_chunks` returns (raises no `IndexError`),
with a positive width and a nonempty delimiter set: every returned chunk
has length at most the width; the chunks carry the non-delimiter characters
of the input in their original order; and every word token of the input
(the delimiter-split pieces) whose length is at most the width is kept
contiguous inside a single chunk. -/
theorem C2_chunks_sound (text : List Char) (size : Nat) (delim : List Char)
    (chunks : List (List Char)) (hsz : 0 < size) (hdelim : delim ≠ [])
    (hp : parse_message_chunks text size delim = some chunks) :
    (∀ c ∈ chunks, c.length ≤ size) ∧
      chunks.flatMap (fun c => c.filter (fun ch => !decide (ch ∈ delim))) =
        text.filter (fun ch => !decide (ch ∈ delim)) ∧
      ∀ tok ∈ splitWords delim text, tok.length ≤ size → ∃ c ∈ chunks, tok <:+: c := by
  by_cases hshort : size = 0 ∨ text.length ≤ size
  · unfold parse_message_chunks at hp
    rw [if_pos hshort] at hp
    obtain rfl : [text] = chunks := by injection hp
    refine ⟨?_, by simp, ?_⟩
    · intro c hc
      have hct : c = text := by simpa using hc
      subst hct
      rcases hshort with h | h
      · omega
      · exact h
    · intro tok htok _
      exact ⟨text, by simp, splitWords_seg_mem delim text tok htok⟩
  · unfold parse_message_chunks at hp
    rw [if_neg hshort] at hp
    refine ⟨?_, ?_, ?_⟩
    · refine mergeLoop_inv size delim (fun ws => ∀ c ∈ ws, c.length ≤ size) ?_ _ 0 true
        chunks hp (hardSplit_le hsz _)
      intro pre w1 w2 post hm hq c hc
      rcases List.mem_append.mp hc with h | h
      · exact hq c (List.mem_append.mpr (Or.inl h))
      · rcases List.mem_cons.mp h with h1 | h1
        · exact h1 ▸ hm
        · exact hq c (List.mem_append.mpr
            (Or.inr (List.mem_cons_of_mem _ (List.mem_cons_of_mem _ h1))))
    · have hdnil : delim.filter (fun ch => !decide (ch ∈ delim)) = [] := by
        refine List.filter_eq_nil_iff.mpr ?_
        intro a ha
        simp [ha]
      have hinv := mergeLoop_inv size delim
        (fun ws => ws.flatMap (fun c => c.filter (fun ch => !decide (ch ∈ delim))) =
          (hardSplit size (splitWords delim text)).flatMap
            (fun c => c.filter (fun ch => !decide (ch ∈ delim))))
        ?_ _ 0 true chunks hp rfl
      · rw [hinv, ← filter_flatten, hardSplit_flatten, splitWords_flatten, filter_idem]
      · intro pre w1 w2 post hm hq
        simp only [List.flatMap_append, List.flatMap_cons, List.filter_append, hdnil,
          List.append_nil, List.nil_append, List.append_assoc] at hq ⊢
        exact hq
    · intro tok htok hlen
      refine mergeLoop_inv size delim (fun ws => ∃ c ∈ ws, tok <:+: c) ?_ _ 0 true chunks hp
        ⟨tok, mem_hardSplit_of_le htok hlen, seg_refl tok⟩
      intro pre w1 w2 post hm hq
      obtain ⟨c, hc, hseg⟩ := hq
      rcases List.mem_append.mp hc with h | h
      · exact ⟨c, List.mem_append.mpr (Or.inl h), hseg⟩
      · rcases List.mem_cons.mp h with h1 | h1
        · exact ⟨w1 ++ delim ++ w2, List.mem_append.mpr (Or.inr (by simp)),
            seg_trans (h1 ▸ hseg) (seg_merge_left w1 delim w2)⟩
        · rcases List.mem_cons.mp h1 with h2 | h2
          · exact ⟨w1 ++ delim ++ w2, List.mem_append.mpr (Or.inr (by simp)),
              seg_trans (h2 ▸ hseg) (seg_merge_right w1 delim w2)⟩
          · exact ⟨c, List.mem_append.mpr (Or.inr (List.mem_cons_of_mem _ h2)), hseg⟩

/-- Concrete evaluation: at width 10 with the default delimiter string, the
four tokens of `"aa bb cc dd"` are re-merged pairwise, reinserting the
whole five-character delimiter string each time. -/
theorem parse_eval_aabbccdd :
    parse_message_chunks "aa bb cc dd".toList 10 pyDelim =
      some [['a', 'a', ' ', ',', '.', '-', '_', 'b', 'b'],
        ['c', 'c', ' ', ',', '.', '-', '_', 'd', 'd']] := by
  have htext : "aa bb cc dd".toList =
      ['a', 'a', ' ', 'b', 'b', ' ', 'c', 'c', ' ', 'd', 'd'] := by decide
  rw [htext]
  unfold parse_message_chunks
  rw [if_neg (by decide)]
  have hsplit : splitWords pyDelim ['a', 'a', ' ', 'b', 'b', ' ', 'c', 'c', ' ', 'd', 'd'] =
      [['a', 'a'], ['b', 'b'], ['c', 'c'], ['d', 'd']] := by decide
  rw [hsplit]
  have hhard : hardSplit 10 [['a', 'a'], ['b', 'b'], ['c', 'c'], ['d', 'd']] =
      [['a', 'a'], ['b', 'b'], ['c', 'c'], ['d', 'd']] := by
    simp only [hardSplit, List.flatMap_cons, List.flatMap_nil]
    simp
  rw [hhard]
  simp [mergeLoop, pyDelim]

/-- Concrete evaluation: a single 12-character word at width 8 is hard-split
into an 8-character piece and a 4-character piece, which do not re-merge. -/
theorem parse_eval_longword :
    parse_message_chunks "ABCDEFGHIJKL".toList 8 pyDelim =
      some [['A', 'B', 'C', 'D', 'E', 'F', 'G', 'H'], ['I', 'J', 'K', 'L']] := by
  have htext : "ABCDEFGHIJKL".toList =
      ['A', 'B', 'C', 'D', 'E', 'F', 'G', 'H', 'I', 'J', 'K', 'L'] := by decide
  rw [htext]
  unfold parse_message_chunks
  rw [if_neg (by decide)]
  have hsplit : splitWords pyDelim
      ['A', 'B', 'C', 'D', 'E', 'F', 'G', 'H', 'I', 'J', 'K', 'L'] =
      [['A', 'B', 'C', 'D', 'E', 'F', 'G', 'H', 'I', 'J', 'K', 'L']] := by decide
  rw [hsplit]
  have hchunk : chunksOf 8 ['A', 'B', 'C', 'D', 'E', 'F', 'G', 'H', 'I', 'J', 'K', 'L'] =
      [['A', 'B', 'C', 'D', 'E', 'F', 'G', 'H'], ['I', 'J', 'K', 'L']] := by
    simp [chunksOf]
  have hhard : hardSplit 8 [['A', 'B', 'C', 'D', 'E', 'F', 'G', 'H', 'I', 'J', 'K', 'L']] =
      [['A', 'B', 'C', 'D', 'E', 'F', 'G', 'H'], ['I', 'J', 'K', 'L']] := by
    simp only [hardSplit, List.flatMap_cons, List.flatMap_nil]
    rw [if_pos (by decide), hchunk]
    simp
  rw [hhard]
  simp [mergeLoop, pyDelim]

/-- Witness for C2 at `"aa bb cc dd"`, width 10, with the default delimiter
string. -/
theorem C2_chunks_sound_witness :
    (0 < 10) ∧ (pyDelim ≠ []) ∧
      ((∀ c ∈ [['a', 'a', ' ', ',', '.', '-', '_', 'b', 'b'],
          ['c', 'c', ' ', ',', '.', '-', '_', 'd', 'd']], c.length ≤ 10) ∧
        [['a', 'a', ' ', ',', '.', '-', '_', 'b', 'b'],
            ['c', 'c', ' ', ',', '.', '-', '_', 'd', 'd']].flatMap
            (fun c => c.filter (fun ch => !decide (ch ∈ pyDelim))) =
          "aa bb cc dd".toList.filter (fun ch => !decide (ch ∈ pyDelim)) ∧
        ∀ tok ∈ splitWords pyDelim "aa bb cc dd".toList, tok.length ≤ 10 →
          ∃ c ∈ [['a', 'a', ' ', ',', '.', '-', '_', 'b', 'b'],
            ['c', 'c', ' ', ',', '.', '-', '_', 'd', 'd']], tok <:+: c) :=
  ⟨by decide, by decide,
    C2_chunks_sound "aa bb cc dd".toList 10 pyDelim _ (by decide) (by decide)
      parse_eval_aabbccdd⟩

/-- C6, counterexample to the claim as stated: merging the adjacent tokens
`"aa"` and `"bb"` (width 10, default delimiter string `' ,.-_'`) reinserts
the whole five-character delimiter string, producing the nine-character
chunk `"aa ,.-_bb"`, not a chunk of length `2 + 2 + 1 = 5`. -/
theorem C6_merge_counterexample :
    parse_message_chunks "aa bb cc dd".toList 10 pyDelim =
      some [['a', 'a', ' ', ',', '.', '-', '_', 'b', 'b'],
        ['c', 'c', ' ', ',', '.', '-', '_', 'd', 'd']] ∧
      (['a', 'a', ' ', ',', '.', '-', '_', 'b', 'b'] : List Char).length = 9 ∧
      ¬ (['a', 'a', ' ', ',', '.', '-', '_', 'b', 'b'] : List Char).length =
          "aa".toList.length + "bb".toList.length + 1 :=
  ⟨parse_eval_aabbccdd, by decide, by decide⟩

/-- C6, amended: when the re-merge loop runs (the text is longer than the
positive width) and returns, every chunk is the join of a nonempty block of
process-2 word pieces with the entire delimiter string reinserted between
consecutive pieces; in particular a chunk merged from exactly two tokens
has length equal to the sum of the token lengths plus the length of the
delimiter string (which is `1` only for a single-character delimiter). -/
theorem C6_merge_joins_with_delimiter (text : List Char) (size : Nat) (delim : List Char)
    (chunks : List (List Char)) (hsz : 0 < size) (hlong : size < text.length)
    (hp : parse_message_chunks text size delim = some chunks) :
    ∀ c ∈ chunks, ∃ blk, blk ≠ [] ∧
      (∀ b ∈ blk, b ∈ hardSplit size (splitWords delim text)) ∧
      c = joinD delim blk ∧
      ∀ w1 w2, blk = [w1, w2] → c.length = w1.length + delim.length + w2.length := by
  unfold parse_message_chunks at hp
  rw [if_neg (by omega)] at hp
  have hinv := mergeLoop_inv size delim
    (fun ws => ∀ c ∈ ws, ∃ blk, blk ≠ [] ∧
      (∀ b ∈ blk, b ∈ hardSplit size (splitWords delim text)) ∧ c = joinD delim blk)
    ?_ _ 0 true chunks hp ?_
  · intro c hc
    obtain ⟨blk, hbne, hbmem, hbeq⟩ := hinv c hc
    refine ⟨blk, hbne, hbmem, hbeq, ?_⟩
    intro w1 w2 hblk
    subst hblk
    have : joinD delim [w1, w2] = w1 ++ delim ++ w2 := rfl
    rw [hbeq, this]
    simp [Nat.add_assoc]
  · intro pre w1 w2 post hm hq c hc
    rcases List.mem_append.mp hc with h | h
    · exact hq c (List.mem_append.mpr (Or.inl h))
    · rcases List.mem_cons.mp h with h1 | h1
      · obtain ⟨blk1, hb1ne, hb1mem, hb1eq⟩ :=
          hq w1 (List.mem_append.mpr (Or.inr (by simp)))
        obtain ⟨blk2, hb2ne, hb2mem, hb2eq⟩ :=
          hq w2 (List.mem_append.mpr (Or.inr (by simp)))
        refine ⟨blk1 ++ blk2, by simp [hb1ne], ?_, ?_⟩
        · intro b hb
          rcases List.mem_append.mp hb with h2 | h2
          · exact hb1mem b h2
          · exact hb2mem b h2
        · rw [h1, joinD_append delim blk1 blk2 hb1ne hb2ne, ← hb1eq, ← hb2eq]
      · exact hq c (List.mem_append.mpr
          (Or.inr (List.mem_cons_of_mem _ (List.mem_cons_of_mem _ h1))))
  · intro c hc
    exact ⟨[c], by simp, by simpa using hc, rfl⟩

/-- Witness for the amended C6 at `"aa bb cc dd"`, width 10, default
delimiter string. -/
theorem C6_merge_joins_with_delimiter_witness :
    (0 < 10) ∧ (10 < "aa bb cc dd".toList.length) ∧
      ∀ c ∈ [['a', 'a', ' ', ',', '.', '-', '_', 'b', 'b'],
          ['c', 'c', ' ', ',', '.', '-', '_', 'd', 'd']], ∃ blk, blk ≠ [] ∧
        (∀ b ∈ blk, b ∈ hardSplit 10 (splitWords pyDelim "aa bb cc dd".toList)) ∧
        c = joinD pyDelim blk ∧
        ∀ w1 w2, blk = [w1, w2] →
          c.length = w1.length + pyDelim.length + w2.length :=
  ⟨by decide, by decide,
    C6_merge_joins_with_delimiter "aa bb cc dd".toList 10 pyDelim _ (by decide) (by decide)
      parse_eval_aabbccdd⟩

/-- C3, counterexample to the claim as stated: width 8 (the demo display),
label list `["ABCDEFGHIJKL"]`, value `123456789`, `two_step = true`.  The
combined string exceeds the width, but no label fits the display either, so
`get_stat_prefix` falls back to the over-long label and `print` chunks it
into two pages; with the value page the display shows three pages, not the
claimed two (label page, value page). -/
theorem C3_print_stat_counterexample :
    print_stat_pages asciiFns [] 8 [] (some ["ABCDEFGHIJKL".toList]) 123456789 Align.right
        true =
      some [['A', 'B', 'C', 'D', 'E', 'F', 'G', 'H'], ['I', 'J', 'K', 'L'],
        "12345E+4".toList] ∧
      print_stat_pages asciiFns [] 8 [] (some ["ABCDEFGHIJKL".toList]) 123456789 Align.right
          true ≠
        some ["ABCDEFGHIJKL".toList, "12345E+4".toList] := by
  have hmain : print_stat_pages asciiFns [] 8 [] (some ["ABCDEFGHIJKL".toList]) 123456789
      Align.right true =
      some [['A', 'B', 'C', 'D', 'E', 'F', 'G', 'H'], ['I', 'J', 'K', 'L'],
        "12345E+4".toList] := by
    unfold print_stat_pages
    rw [show filter_number 123456789 8 = some "12345E+4".toList from by decide]
    dsimp only
    rw [show get_stat_label ["ABCDEFGHIJKL".toList] "12345E+4".toList 8 =
        some "ABCDEFGHIJKL".toList from by decide]
    dsimp only
    rw [if_neg (show ¬ ("ABCDEFGHIJKL".toList = ([] : List Char)) from by decide),
      if_neg (show ¬ ("ABCDEFGHIJKL".toList ++ ' ' :: "12345E+4".toList).length ≤ 8 from
        by decide)]
    unfold print_pages
    rw [parse_eval_longword,
      parse_of_le pyDelim (show ("12345E+4".toList).length ≤ 8 by decide)]
    rfl
  exact ⟨hmain, by rw [hmain]; decide⟩

/-- C3, amended: when the selected label and the filtered value do not fit
the display together, but each fits on its own, `print_stat` renders
exactly two pages (the label alone, then the value alone) when `two_step`
is true, and exactly one page (the value alone) when `two_step` is false.
(When the fallback label or the value is itself wider than the display, its
`print` call chunks it into several pages, as the counterexample shows.) -/
theorem C3_print_stat_two_pages (fns : CharFns) (supported : List Char) (w : Nat)
    (current : List Char) (pl : List (List Char)) (value : Int) (align : Align)
    (two_step : Bool) (v p : List Char)
    (hv : filter_number value w = some v)
    (hl : get_stat_label pl v w = some p)
    (hpne : p ≠ [])
    (hover : ¬ (p ++ ' ' :: v).length ≤ w)
    (hpfit : p.length ≤ w) (hvfit : v.length ≤ w) :
    print_stat_pages fns supported w current (some pl) value align two_step =
      some (if two_step = true then [p, v] else [v]) := by
  have hp1 : print_pages p w = some [p] := parse_of_le pyDelim hpfit
  have hv1 : print_pages v w = some [v] := parse_of_le pyDelim hvfit
  unfold print_stat_pages
  rw [hv]
  dsimp only
  rw [hl]
  dsimp only
  rw [if_neg hpne, if_neg hover]
  rcases two_step with _ | _
  · simp only [Bool.false_eq_true, if_false, hv1]
    rfl
  · simp only [if_true, hp1, hv1]
    rfl

/-- Witness for the amended C3: label `"Views"`, value `123456`, width 8;
the combined string (12 characters) exceeds the display, each part fits,
and two pages are printed with `two_step = true`. -/
theorem C3_print_stat_two_pages_witness :
    (filter_number 123456 8 = some "123456".toList ∧
      get_stat_label ["Views".toList] "123456".toList 8 = some "Views".toList ∧
      ¬ ("Views".toList ++ ' ' :: "123456".toList).length ≤ 8) ∧
      print_stat_pages asciiFns [] 8 [] (some ["Views".toList]) 123456 Align.right true =
        some (if true = true then ["Views".toList, "123456".toList]
          else ["123456".toList]) :=
  ⟨⟨by decide, by decide, by decide⟩,
    C3_print_stat_two_pages asciiFns [] 8 [] ["Views".toList] 123456 Align.right true
      "123456".toList "Views".toList (by decide) (by decide) (by decide) (by decide)
      (by decide) (by decide)⟩

end Splitflap
